import Mathlib

/-!
Shallow embedding of the M-tree implementation in `mtree.h` (the latest
iteration of the header: `src/unnamed/part_000`, lines 1090-2203, class
`mt::m_tree`).

Modelling conventions, fixed once here:

* `R` (the distance codomain) is embedded as `ℤ`; the distance function is an
  arbitrary parameter `d : T → T → ℤ`.  `std::numeric_limits<R>::max()` is used
  by the source only as an "infinity" sentinel (initial `dk` in the kNN search,
  unset slots in the insert-descent distance array); it is embedded as `none`
  of an `Option ℤ` (helpers `leOpt`, `ltOpt`, `leOptAdd` below) respectively by
  restricting folds to the occupied entries, which coincides with the source
  whenever real distances stay below the numeric maximum.
* A node's `std::array<_, C>` holds its occupied entries in a contiguous prefix
  (the source only ever fills the first free slot and rebuilds arrays
  left-to-right), so node contents are embedded as a `List` of the occupied
  entries; "first free slot" becomes list append.
* `std::weak_ptr`/`std::shared_ptr` identity: a routing pivot aliases the
  allocation of a value stored below it, and the source compares these by
  pointer (`values[j].lock() == ls[k].value`, `if_routing`).  Every insertion
  allocates a fresh value, so pointer equality coincides with value equality
  as long as stored values are pairwise distinct; the embedding uses value
  equality (`DecidableEq T`) and the concrete runs below use distinct values.
* Parent back-pointers are not represented structurally; the only observable
  use of `node->parent` in a query is the test `parent.expired()`, which is
  true exactly for the root, so traversals carry an `isRoot : Bool` flag, and
  the insert recursion passes the parent's entry values down explicitly.
* `BOOST_ASSERT_MSG` guarding a precondition, and paths that are undefined
  behaviour in C++ (out-of-bounds indexing after a failed `find_if`), are
  embedded as `Option`/`Except` failures.
* The tree is embedded in its default configuration, the one every driver in
  the repository uses: `split_policy::M_LB_DIST` and
  `partition_algorithm::BALANCED` (`GEN_HYPERPLANE` has no implementation in
  the source, and the other policies either crash or need the C++ random
  engine).
* Worklist `while` loops are embedded with an explicit iteration budget
  (`fuel`) chosen at the call site to dominate the number of iterations the
  C++ loop performs; running out of fuel returns the state accumulated so far.
-/

namespace Mtree

/-- Leaf entry: owned value, external id, cached distance to the parent pivot
(`struct leaf_object`). -/
structure leaf_object (T ID : Type) where
  value : T
  id : ID
  distance : ℤ
  deriving DecidableEq

mutual

/-- Node of the m-tree: either a leaf holding stored entries or an internal
node holding routing entries (`struct tree_node` with its
`boost::variant<leaf_set, route_set>` data). -/
inductive tree_node (T ID : Type) where
  | leaf (entries : List (leaf_object T ID))
  | internal (entries : List (routing_object T ID))

/-- Routing entry: pivot value, covering radius, cached distance to the parent
pivot, and the owned child subtree (`struct routing_object`). -/
inductive routing_object (T ID : Type) where
  | mk (value : T) (covering_radius : ℤ) (distance : ℤ)
      (covering_tree : tree_node T ID)

end

variable {T ID : Type}

def routing_object.value : routing_object T ID → T
  | .mk v _ _ _ => v

def routing_object.covering_radius : routing_object T ID → ℤ
  | .mk _ r _ _ => r

def routing_object.distance : routing_object T ID → ℤ
  | .mk _ _ dist _ => dist

def routing_object.covering_tree : routing_object T ID → tree_node T ID
  | .mk _ _ _ t => t

/-- One element of a `data_vector`:
`boost::variant<leaf_object, routing_object>`. -/
inductive data_entry (T ID : Type) where
  | leafObj (lo : leaf_object T ID)
  | routeObj (ro : routing_object T ID)

/-- `get_node_value` visitor: the reference value of either entry variant. -/
def data_entry.node_value : data_entry T ID → T
  | .leafObj lo => lo.value
  | .routeObj ro => ro.value

def data_entry.isLeafEntry : data_entry T ID → Bool
  | .leafObj _ => true
  | .routeObj _ => false

/-- `save_object_to_set` visitor: store a copy of the entry with its
`distance` field overwritten. -/
def data_entry.withDistance : data_entry T ID → ℤ → data_entry T ID
  | .leafObj lo, dist => .leafObj { lo with distance := dist }
  | .routeObj (.mk v r _ t), dist => .routeObj (.mk v r dist t)

mutual

/-- Number of nodes of a subtree (used only as an iteration budget). -/
def nodeCount : tree_node T ID → ℕ
  | .leaf _ => 1
  | .internal ros => 1 + nodeCountList ros

def nodeCountList : List (routing_object T ID) → ℕ
  | [] => 0
  | .mk _ _ _ t :: rest => nodeCount t + nodeCountList rest

end

mutual

/-- All leaf entries stored in a subtree, in left-to-right order. -/
def storedLeaves : tree_node T ID → List (leaf_object T ID)
  | .leaf los => los
  | .internal ros => storedLeavesList ros

def storedLeavesList : List (routing_object T ID) → List (leaf_object T ID)
  | [] => []
  | .mk _ _ _ t :: rest => storedLeaves t ++ storedLeavesList rest

end

variable [DecidableEq T] [DecidableEq ID] [Inhabited ID]
variable (d : T → T → ℤ)

mutual

/-- Invariant 4 of the spec, as a decidable walker: every routing entry covers
all leaf values stored below it. -/
def coveringOk : tree_node T ID → Bool
  | .leaf _ => true
  | .internal ros => coveringOkList ros

def coveringOkList : List (routing_object T ID) → Bool
  | [] => true
  | .mk v r _ t :: rest =>
      ((storedLeaves t).all (fun lo => d v lo.value ≤ r))
      && coveringOk t && coveringOkList rest

end

/-- `get_parent_value` visitor: the first entry of the node (slot order) whose
value is set and whose cached parent distance is `0`; this recovers the pivot
of the routing entry owning the node. -/
def get_parent_value : tree_node T ID → Option T
  | .leaf los => (los.find? (fun lo => lo.distance = 0)).map (·.value)
  | .internal ros => (ros.find? (fun ro => ro.distance = 0)).map (·.value)

/-- `calculate_distance_matrix`: row-major `|o| × |o|` matrix of pairwise
distances, `0` on the diagonal without calling `d`. -/
def calculate_distance_matrix (o : List (data_entry T ID)) : List ℤ :=
  (List.range o.length).flatMap (fun i =>
    (List.range o.length).map (fun j =>
      if j = i then 0
      else match o.get? i, o.get? j with
        | some a, some b => d a.node_value b.node_value
        | _, _ => 0))

/-- Index of the first minimal element (`std::min_element` with `<`);
`0` on the empty list. -/
def idxOfMin (l : List ℤ) : ℕ :=
  (l.foldl
    (fun st v =>
      if v < st.2.1 then (st.2.2, v, st.2.2 + 1)
      else (st.1, st.2.1, st.2.2 + 1))
    ((0 : ℕ), l.headD 0, (0 : ℕ))).1

/-- `maximise_distance_lower_bound` (split policy `M_LB_DIST`): scan all
ordered pairs in index order, keeping the first pair strictly improving the
running maximum (which starts at `0`).  `none` models the pivots staying unset
(null `weak_ptr`s) when no pair has positive distance; the source then fails
the `PROMOTE FUNCTION CHOSE THE SAME OBJECTS` assertion inside partition. -/
def maximise_distance_lower_bound (objects : List (data_entry T ID)) :
    Option (T × T) :=
  let vals := objects.map data_entry.node_value
  (vals.foldl
    (fun acc vi =>
      vals.foldl
        (fun acc2 vj =>
          if d vi vj > acc2.1 then (d vi vj, some (vi, vj)) else acc2)
        acc)
    ((0 : ℤ), (none : Option (T × T)))).2

/-- One conditional assignment step of `balanced_partition`'s loop: if `src`
is non-empty and the child is below capacity, move the head's index into the
child and remove that index from both candidate lists (`std::remove_if` +
`erase` removes every pair carrying the id). -/
def bpAssign (C : ℕ) (src other : List (ℕ × ℤ)) (acc : List ℕ) :
    List (ℕ × ℤ) × List (ℕ × ℤ) × List ℕ :=
  match src with
  | [] => (src, other, acc)
  | h :: _ =>
      if acc.length < C then
        (src.filter (fun p => p.1 ≠ h.1), other.filter (fun p => p.1 ≠ h.1),
          acc ++ [h.1])
      else (src, other, acc)

/-- The `while (!d1.empty() || !d2.empty())` loop of `balanced_partition`,
alternating between the two children.  `fuel` dominates the number of
iterations whenever the loop terminates (it assigns at least one element per
iteration unless both children are at capacity with elements left over, in
which case the C++ loops forever and the embedding returns the assignment
reached). -/
def bpLoop (C : ℕ) : ℕ → List (ℕ × ℤ) → List (ℕ × ℤ) → List ℕ → List ℕ →
    List ℕ × List ℕ
  | 0, _, _, a1, a2 => (a1, a2)
  | fuel + 1, d1, d2, a1, a2 =>
      if d1.isEmpty && d2.isEmpty then (a1, a2)
      else
        let s1 := bpAssign C d1 d2 a1
        let s2 := bpAssign C s1.2.1 s1.1 a2
        bpLoop C fuel s2.2.1 s2.1 s1.2.2 s2.2.2

/-- Build one child's entry list from the assigned indices: a copy of each
assigned entry with `distance` set to its distance from the pivot
(`save_object_to_set`; for routing entries `update_parent` then rewrites the
same field to `d(entry, pivot)`, embedded directly). -/
def childEntries (o : List (data_entry T ID)) (dist : ℕ → ℤ) (pivot : T)
    (idxs : List ℕ) : tree_node T ID :=
  match o.headD (.leafObj ⟨pivot, default, 0⟩) with
  | .leafObj _ =>
      .leaf (idxs.filterMap (fun a =>
        match o.get? a with
        | some (.leafObj lo) => some { lo with distance := dist a }
        | _ => none))
  | .routeObj _ =>
      .internal (idxs.filterMap (fun a =>
        match o.get? a with
        | some (.routeObj (.mk v r _ t)) => some (.mk v r (d v pivot) t)
        | _ => none))

/-- `balanced_partition`: locate the promoted pivots in the bag, build the two
per-pivot sorted candidate lists, run the alternating loop, and assemble the
two routing entries with covering radius the maximum assigned distance.
`none` embeds the assertion `PROMOTE FUNCTION CHOSE THE SAME OBJECTS` (and
the out-of-bounds matrix access that follows a failed `find_if`). -/
def balanced_partition (C : ℕ) (o : List (data_entry T ID))
    (distances : List ℤ) (p1 p2 : T) :
    Option (routing_object T ID × routing_object T ID) :=
  let n := o.length
  match o.findIdx? (fun e => e.node_value = p1),
        o.findIdx? (fun e => e.node_value = p2) with
  | some n1_index, some n2_index =>
      if n1_index = n2_index then none
      else
        let dist1 := fun a => distances.getD (n * n1_index + a) 0
        let dist2 := fun a => distances.getD (n * n2_index + a) 0
        let d1 := ((List.range n).map (fun a => (a, dist1 a))).insertionSort
          (fun x y => x.2 < y.2)
        let d2 := ((List.range n).map (fun a => (a, dist2 a))).insertionSort
          (fun x y => x.2 < y.2)
        let asn := bpLoop C n d1 d2 [] []
        let r1 := asn.1.foldl (fun m a => max m (dist1 a)) 0
        let r2 := asn.2.foldl (fun m a => max m (dist2 a)) 0
        some (.mk p1 r1 0 (childEntries d o dist1 p1 asn.1),
              .mk p2 r2 0 (childEntries d o dist2 p2 asn.2))
  | _, _ => none

/-- `split` up to the point where the two fresh routing entries exist: gather
the bag (new entry first, then the node's occupied entries), promote under
the default `M_LB_DIST` policy, and partition under the default `BALANCED`
algorithm (the `partition` dispatcher computes the distance matrix when none
is supplied). -/
def splitNode (C : ℕ) (newEntry : data_entry T ID)
    (existing : List (data_entry T ID)) :
    Option (routing_object T ID × routing_object T ID) :=
  let objects := newEntry :: existing
  match maximise_distance_lower_bound d objects with
  | none => none
  | some (p1, p2) =>
      balanced_partition d C objects (calculate_distance_matrix d objects) p1 p2

def routing_object.withRadius : routing_object T ID → ℤ → routing_object T ID
  | .mk v _ dist t, r => .mk v r dist t

def routing_object.withDistance : routing_object T ID → ℤ → routing_object T ID
  | .mk v r _ t, dist => .mk v r dist t

def routing_object.withChild :
    routing_object T ID → tree_node T ID → routing_object T ID
  | .mk v r dist _, t => .mk v r dist t

/-- Result of inserting into a subtree: either the updated subtree, or the two
replacement routing entries produced by a split that the caller must attach
(in the source this propagation happens through `split` following the parent
pointer; the root frame turns a surviving split into a new root). -/
inductive ins_result (T ID : Type) where
  | ok (n : tree_node T ID)
  | split (o1 o2 : routing_object T ID)

/-- The parent-distance computation of `leaf_node_insert`: first `(j, k)` in
lexicographic order with the parent's `j`-th entry value aliasing the leaf's
`k`-th stored value gives `d(ls[k].value, t)`.  When no pair matches the
source reads `values[j]` past the vector's end (undefined behaviour); the
embedding leaves the slot's default `0`. -/
def leaf_parent_distance (values : List T) (los : List (leaf_object T ID))
    (v : T) : ℤ :=
  (values.findSome? (fun pv =>
    (los.find? (fun lo => lo.value = pv)).map (fun lo => d lo.value v))).getD 0

/-- The one-pass attach loop of `split` over the parent's entry array: for
each occupied slot in order, a slot with `distance == 0` refreshes the local
`o1.distance` / `o2.distance`, and the slot owning the split child is
overwritten by `o1` (carrying the distance refreshed so far).  Returns the
rewritten occupied prefix and the final two distances. -/
def attachScan (ros : List (routing_object T ID)) (chosen : ℕ)
    (o1 o2 : routing_object T ID) :
    List (routing_object T ID) × ℤ × ℤ :=
  ros.enum.foldl
    (fun st ie =>
      let o1d := if ie.2.distance = 0 then d ie.2.value o1.value else st.2.1
      let o2d := if ie.2.distance = 0 then d ie.2.value o2.value else st.2.2
      let e' := if ie.1 = chosen then o1.withDistance o1d else ie.2
      (st.1 ++ [e'], o1d, o2d))
    ([], o1.distance, o2.distance)

/-- Attach a child split at an internal node: rewrite the occupied prefix,
then either copy `o2` into every remaining free slot (`else if
(false == parent_ros[i].covering_tree)` fires once per free slot), or, with no
free slot, split this node again with `o2` as the new entry. -/
def attachSplit (C : ℕ) (ros : List (routing_object T ID)) (chosen : ℕ)
    (o1 o2 : routing_object T ID) : Option (ins_result T ID) :=
  let scan := attachScan d ros chosen o1 o2
  if ros.length < C then
    some (.ok (.internal
      (scan.1 ++ List.replicate (C - ros.length) (o2.withDistance scan.2.2))))
  else
    (splitNode d C (.routeObj (o2.withDistance scan.2.2))
      (scan.1.map .routeObj)).map (fun p => .split p.1 p.2)

/-- Recursive insertion (`insert(id, t, node)` dispatching to
`leaf_node_insert` / `internal_node_insert`).  `pvals` carries the parent
node's entry values (what `get_object_values` recovers through the parent
pointer); `fuel` dominates the descent depth. -/
def insertNode (C : ℕ) :
    ℕ → Option (List T) → ID → T → tree_node T ID → Option (ins_result T ID)
  | 0, _, _, _, _ => none
  | _ + 1, pvals, i, v, .leaf los =>
      if los.length < C then
        let dist := match pvals with
          | none => 0
          | some vals => leaf_parent_distance d vals los v
        some (.ok (.leaf (los ++ [⟨v, i, dist⟩])))
      else
        (splitNode d C (.leafObj ⟨v, i, 0⟩) (los.map .leafObj)).map
          (fun p => .split p.1 p.2)
  | fuel + 1, _, i, v, .internal ros =>
      match ros with
      | [] => some (.ok (.internal ros))
      | _ :: _ =>
        let dists := ros.map (fun e => d v e.value)
        let i0 := idxOfMin dists
        match ros.get? i0 with
        | none => none
        | some e0 =>
          let sel :=
            if dists.getD i0 0 > e0.covering_radius then
              let dists2 := ros.map (fun e => d v e.value - e.covering_radius)
              let i1 := idxOfMin dists2
              match ros.get? i1 with
              | none => none
              | some e1 =>
                  some (i1, ros.set i1 (e1.withRadius (dists2.getD i1 0)))
            else some (i0, ros)
          match sel with
          | none => none
          | some (chosen, ros') =>
            match ros'.get? chosen with
            | none => none
            | some ec =>
              match insertNode C fuel (some (ros'.map routing_object.value))
                  i v ec.covering_tree with
              | none => none
              | some (.ok c') =>
                  some (.ok (.internal (ros'.set chosen (ec.withChild c'))))
              | some (.split o1 o2) => attachSplit d C ros' chosen o1 o2

/-- The tree handle: owns the root node (`std::shared_ptr<tree_node> root`;
`none` is the reset pointer left behind by `clear()`). -/
structure m_tree (T ID : Type) where
  root : Option (tree_node T ID)

/-- `clear()`: `root.reset()` drops the whole tree; no fresh node is
allocated until the next operation needs one. -/
def m_tree.clear (_t : m_tree T ID) : m_tree T ID := ⟨none⟩

/-- Public `insert(ID id, std::shared_ptr<T> t)`: allocate a fresh empty leaf
root when the root pointer is null, then insert; a split surviving to the
root allocates a new internal root holding the two routing entries. -/
def m_tree.insert (C : ℕ) (t : m_tree T ID) (i : ID) (v : T) :
    Option (m_tree T ID) :=
  let r := t.root.getD (.leaf [])
  match insertNode d C (nodeCount r + 1) none i v r with
  | none => none
  | some (.ok n) => some ⟨some n⟩
  | some (.split o1 o2) => some ⟨some (.internal [o1, o2])⟩

/-- Worklist loop of `range_query`: FIFO queue of (node, is-root) pairs; the
parent distance `dp` is `d(ref, parent_value)` for non-root nodes with a
recoverable parent value and `0` otherwise.  Note the two strict comparisons
of the source: `< range + covering_radius` in the internal exact test and
`< range` in the leaf cheap filter. -/
def rangeLoop (q : T) (r : ℤ) :
    ℕ → List (tree_node T ID × Bool) → List ID → List ID
  | 0, _, acc => acc
  | _ + 1, [], acc => acc
  | fuel + 1, (nd, isRoot) :: rest, acc =>
      let dp := match get_parent_value nd with
        | some pv => if isRoot then 0 else d q pv
        | none => 0
      match nd with
      | .internal ros =>
          let next := ros.filterMap (fun e =>
            if |dp - e.distance| ≤ r + e.covering_radius then
              if d q e.value < r + e.covering_radius then
                some (e.covering_tree, false)
              else none
            else none)
          rangeLoop q r fuel (rest ++ next) acc
      | .leaf los =>
          let hits := los.filterMap (fun lo =>
            if |dp - lo.distance| < r then
              if d lo.value q ≤ r then some lo.id else none
            else none)
          rangeLoop q r fuel rest (acc ++ hits)

/-- Public `range_query(const T& ref, R range)`. -/
def m_tree.range_query (t : m_tree T ID) (q : T) (r : ℤ) : List ID :=
  match t.root with
  | none => []
  | some rt => rangeLoop d q r (nodeCount rt + 1) [(rt, true)] []

/-- Comparison against the `numeric_limits<R>::max()` sentinel (`none`). -/
def leOpt (a : ℤ) : Option ℤ → Bool
  | none => true
  | some b => decide (a ≤ b)

def ltOpt (a : ℤ) : Option ℤ → Bool
  | none => true
  | some b => decide (a < b)

def leOptAdd (a r : ℤ) : Option ℤ → Bool
  | none => true
  | some b => decide (a ≤ b + r)

/-- The running `dk` of the kNN search: `numeric_limits<R>::max()` while the
result list is empty, otherwise the distance of its last (worst) element. -/
def dkOf (res : List (ID × ℤ)) : Option ℤ := res.getLast?.map (·.2)

/-- `nn_list_update`: overwrite the first placeholder carrying the same
distance, otherwise append; then sort by distance and truncate to `k`. -/
def nn_list_update (inp : ID × ℤ) (k : ℕ) (res : List (ID × ℤ)) :
    List (ID × ℤ) :=
  let res' :=
    match res.findIdx? (fun p => decide (p.1 = default) && decide (p.2 = inp.2)) with
    | some i => res.set i inp
    | none => res ++ [inp]
  let sorted := res'.insertionSort (fun a b => a.2 < b.2)
  if sorted.length > k then sorted.take k else sorted

/-- `std::remove_if` followed by erasing a single element at the returned
iterator (the source's queue-pruning slip: only one of the removed elements
is erased; the rest of the tail keeps stale values, with kept elements
compacted to the front and moved-from pairs left with an expired node
pointer).  `mv` is the moved-from form of an element. -/
def cppRemoveIfEraseOne {α : Type} (pred : α → Bool) (mv : α → α)
    (l : List α) : List α :=
  match l.findIdx? pred with
  | none => l
  | some p =>
      let res := ((List.range l.length).drop (p + 1)).foldl
        (fun st i =>
          match st.1.get? i with
          | none => st
          | some e =>
              if pred e then st
              else ((st.1.set st.2 e).set i (mv e), st.2 + 1))
        (l, p)
      res.1.eraseIdx res.2

/-- An element of the kNN priority list: lower bound plus a weak node pointer
(`none` is an expired pointer, as left behind by a moved-from pair) together
with the is-root flag. -/
abbrev knn_queue_entry (T ID : Type) := ℤ × Option (tree_node T ID × Bool)

/-- `knn_node_search`: visit one node, updating the result list and the
priority queue (pushing children, inserting placeholder upper bounds, and
pruning with the one-element-erase slip). -/
def knn_node_search (k : ℕ) (q : T) (nd : tree_node T ID) (isRoot : Bool)
    (queue : List (knn_queue_entry T ID)) (res : List (ID × ℤ)) :
    List (knn_queue_entry T ID) × List (ID × ℤ) :=
  let dp := match get_parent_value nd with
    | some pv => if isRoot then 0 else d pv q
    | none => 0
  match nd with
  | .internal ros =>
      ros.foldl
        (fun st e =>
          let dk := dkOf st.2
          if leOptAdd |dp - e.distance| e.covering_radius dk then
            let vd := d e.value q
            let dmin := max (vd - e.covering_radius) 0
            if leOpt dmin dk then
              let q1 := st.1 ++ [(dmin, some (e.covering_tree, false))]
              let dmax := vd + e.covering_radius
              if ltOpt dmax dk then
                let res' := nn_list_update (default, dmax) k st.2
                let dk' := dkOf res'
                (cppRemoveIfEraseOne (fun a => !leOpt a.1 dk')
                  (fun a => (a.1, none)) q1, res')
              else (q1, st.2)
            else st
          else st)
        (queue, res)
  | .leaf los =>
      los.foldl
        (fun st lo =>
          let dk := dkOf st.2
          if leOpt |dp - lo.distance| dk then
            let vd := d lo.value q
            if leOpt vd dk then
              let res' := nn_list_update (lo.id, vd) k st.2
              let dk' := dkOf res'
              (cppRemoveIfEraseOne (fun a => !leOpt a.1 dk')
                (fun a => (a.1, none)) st.1, res')
            else st
          else st)
        (queue, res)

/-- The driver loop of `knn_query`: repeatedly erase the first entry with
minimal lower bound and search its node (an expired pointer is skipped by the
`lock()` test at the top of `knn_node_search`). -/
def knnLoop (k : ℕ) (q : T) :
    ℕ → List (knn_queue_entry T ID) → List (ID × ℤ) → List (ID × ℤ)
  | 0, _, res => res
  | fuel + 1, queue, res =>
      match queue with
      | [] => res
      | _ :: _ =>
        let idx := idxOfMin (queue.map (·.1))
        match queue.get? idx with
        | none => res
        | some c =>
          let rest := queue.eraseIdx idx
          match c.2 with
          | none => knnLoop k q fuel rest res
          | some (nd, isRoot) =>
            let st := knn_node_search d k q nd isRoot rest res
            knnLoop k q fuel st.1 st.2

inductive QueryError where
  | invalidArgument
  deriving DecidableEq

/-- Public `knn_query(const T& ref, size_t k)`.  The guard embeds
`BOOST_ASSERT_MSG(k > 0, "knn_query: 0 neighbours is invalid")` as an
`InvalidArgument` failure.  After the loop, entries whose id equals the
default-constructed `ID()` (the placeholder sentinel) are stripped and the
list is truncated to `k`.  The fuel `2 * nodeCount + 1` dominates the
iteration count: every iteration removes one queue element whose weight (2
per reachable node below it, 1 for an expired pointer) exceeds the total
weight it pushes, and pruning never increases total weight. -/
def m_tree.knn_query (t : m_tree T ID) (q : T) (k : ℕ) :
    Except QueryError (List (ID × ℤ)) :=
  if k = 0 then .error .invalidArgument
  else
    let queue : List (knn_queue_entry T ID) := match t.root with
      | none => []
      | some rt => [((0 : ℤ), some (rt, true))]
    let fuel := match t.root with
      | none => 1
      | some rt => 2 * nodeCount rt + 1
    let res := knnLoop d k q fuel queue []
    let stripped := res.filter (fun p => !decide (p.1 = default))
    .ok (if stripped.length > k then stripped.take k else stripped)

/-- The constructed tree: a single empty leaf root (`m_tree::m_tree`). -/
def m_tree.construct : m_tree T ID := ⟨some (.leaf [])⟩

/-- All stored leaf entries of the tree, in left-to-right order. -/
def storedEntries (t : m_tree T ID) : List (leaf_object T ID) :=
  match t.root with
  | none => []
  | some n => storedLeaves n

/-- Routing entries of the root node (empty for a leaf or absent root). -/
def rootEntries (t : m_tree T ID) : List (routing_object T ID) :=
  match t.root with
  | some (.internal ros) => ros
  | _ => []

/-- Covering invariant over the whole tree. -/
def treeCoveringOk (t : m_tree T ID) : Bool :=
  match t.root with
  | none => true
  | some n => coveringOk d n

/-- Spec-side linear-scan oracle, following the spec's words for the range
contract: the ids whose stored value `v` satisfies `d(q, v) ≤ r`. -/
def range_linear_scan (t : m_tree T ID) (q : T) (r : ℤ) : List ID :=
  ((storedEntries t).filter (fun lo => decide (d q lo.value ≤ r))).map (·.id)

/-- Claim-side reading (C5 / spec §4.1) of "the tree becomes a fresh single
empty leaf" after `clear()`: the root pointer holds an empty leaf node. -/
def fresh_single_empty_leaf (t : m_tree T ID) : Prop :=
  t.root = some (.leaf [])

/-- The concrete metric used by the repository's drivers, restricted to the
integer points every claim scenario uses: `d(a, b) = |a - b|`. -/
def dInt (a b : ℤ) : ℤ := |a - b|

/-- Build a tree over `T = ℤ`, `ID = ℕ`, `C = 3` (the default template
arguments of the source) by constructing and folding public inserts. -/
def buildTree (l : List (ℕ × ℤ)) : Option (m_tree ℤ ℕ) :=
  l.foldl (fun acc p => acc.bind (fun t => m_tree.insert dInt 3 t p.1 p.2))
    (some m_tree.construct)

/-- One-line projection of a node's entry values. -/
def nodeEntryValues : tree_node T ID → List T
  | .leaf los => los.map (·.value)
  | .internal ros => ros.map routing_object.value

/-- Concrete overflow bag for the C7 witness: the bag `split` assembles when
value `20` (id 4) overflows the root leaf of the C3/C4 scenario. -/
def c7bag : List (data_entry ℤ ℕ) :=
  [.leafObj ⟨20, 4, 0⟩, .leafObj ⟨0, 1, 0⟩, .leafObj ⟨10, 2, 0⟩,
    .leafObj ⟨5, 3, 0⟩]

/-! ## Claim theorems -/

/-- C1: the claim says `range_query(q, r)` returns exactly the ids whose
stored value is within distance `r` of `q`, with non-strict comparisons in
both the cheap parent-distance filter and the exact test.  The source uses a
strict `<` in the leaf cheap filter (`std::abs(dist_to_parent - los[i].distance) < range`)
and in the internal exact test (`distance < range + covering_radius`), so on
the spec's own concrete scenario 1 (insert value 42 with id 1, then
`range(42, 0)`) the boundary match at distance exactly `0` is dropped: the
query returns `[]` while the linear scan the spec compares against returns
`[1]`. -/
theorem c1_range_query_drops_boundary_match :
    (buildTree [(1, 42)]).map
      (fun t => (m_tree.range_query dInt t 42 0, range_linear_scan dInt t 42 0))
      = some ([], [1]) := rfl

/-- C2: the claim says `knn_query(q, k)` returns `min(k, |S|)` pairs with the
smallest distances.  In the source, `dk` is taken from `result.back()`
whenever the result list is non-empty — the `(k, res_init)` prefill that
would keep `dk` at `numeric_limits<R>::max()` until the list is full is
commented out — so with values `{0, 10}` stored (ids 1, 2) and `k = 2`, after
the first neighbour `(1, 0)` is recorded `dk` collapses to `0` and the second
stored value fails `value_distance <= dk`; the query returns one pair where
`min(2, 2) = 2` are required. -/
theorem c2_knn_misses_second_neighbour :
    (buildTree [(1, 0), (2, 10)]).map
      (fun t => (m_tree.knn_query dInt t 0 2, (storedEntries t).length))
      = some (.ok [(1, 0)], 2) := rfl

/-- C3: the claim says the covering property (invariant 4) is preserved by
every public insert.  With `C = 3` and `d = |a - b|`, inserting values
`[0, 10, 5, 20, 36]` (ids 1..5) first builds a root with routing entries
`(pivot 20, radius 10)` and `(pivot 0, radius 5)`; inserting `36` takes the
enlargement branch of `internal_node_insert`, which reuses the distance array
after subtracting the radii in place and therefore *shrinks* the first
entry's radius to `d(36,20) - 10 = 6`, then stores `36` in that entry's leaf
at distance 16.  The covering walker reports the invariant broken. -/
theorem c3_covering_invariant_broken_by_insert :
    (buildTree [(1, 0), (2, 10), (3, 5), (4, 20), (5, 36)]).map
      (treeCoveringOk dInt) = some false := rfl

/-- C4: the claim says that when no routing entry's ball contains the new
value, the entry minimising `d(q, pivot) - radius` has its radius set to
`d(q, pivot)`.  On the tree built from `[0, 10, 5, 20]` (root entries
`(20, radius 10)`, `(0, radius 5)`), the new value `36` is contained in
neither ball (`d(36,20) = 16 > 10`, `d(36,0) = 36 > 5`); the claim then
requires the first entry's radius to become `16`, but the source assigns
`*min_router` from the already-decremented array, i.e. `16 - 10 = 6`. -/
theorem c4_enlargement_sets_radius_minus_old :
    (buildTree [(1, 0), (2, 10), (3, 5), (4, 20)]).map
        (fun t => (rootEntries t).map (fun ro => (ro.value, ro.covering_radius)))
        = some [(20, 10), (0, 5)]
    ∧ (buildTree [(1, 0), (2, 10), (3, 5), (4, 20)]).map
        (fun t => (rootEntries t).all
          (fun ro => decide (ro.covering_radius < dInt 36 ro.value)))
        = some true
    ∧ (buildTree [(1, 0), (2, 10), (3, 5), (4, 20), (5, 36)]).map
        (fun t => (rootEntries t).map (·.covering_radius)) = some [6, 5]
    ∧ dInt 36 20 = 16 :=
  ⟨rfl, rfl, rfl, rfl⟩

/-- C5 counterexample: the claim says that after `clear()` the tree is a
fresh single empty leaf root.  `clear()` is `root.reset()`: the root pointer
is simply null afterwards, and no leaf node exists until the next insert
allocates one. -/
theorem c5_clear_root_absent :
    ¬ fresh_single_empty_leaf
      (m_tree.clear (⟨some (.leaf [⟨(42 : ℤ), (1 : ℕ), 0⟩])⟩ : m_tree ℤ ℕ)) := by
  simp [m_tree.clear, fresh_single_empty_leaf]

/-- C5 (amended): after `clear()` the root pointer is absent (no node at
all); `clear(); clear()` leaves the same empty, usable state, and a
subsequent insert allocates a fresh empty leaf root and stores exactly its
entry (value, id, parent distance `0`). -/
theorem c5_clear_idempotent_insert_ok (t : m_tree ℤ ℕ) (i : ℕ) (v : ℤ) :
    m_tree.clear (m_tree.clear t) = m_tree.clear t
    ∧ (m_tree.clear t).root = none
    ∧ m_tree.insert dInt 3 (m_tree.clear t) i v
        = some ⟨some (.leaf [⟨v, i, 0⟩])⟩ :=
  ⟨rfl, rfl, rfl⟩

/-- C6: the claim says `knn_query(q, k)` with `k` exceeding the stored count
`n` returns exactly `n` pairs (all placeholders stripped, no duplicate ids).
With values `{0, 10}` stored (ids 1, 2) and `k = 3 > 2`, the `dk =
result.back()` slip of `knn_node_search` (see C2) prunes the second stored
value, so only one pair is returned instead of two. -/
theorem c6_knn_k_exceeding_size_returns_fewer :
    (buildTree [(1, 0), (2, 10)]).map
      (fun t => (m_tree.knn_query dInt t 0 3, (storedEntries t).length))
      = some (.ok [(1, 0)], 2) := rfl

/-- C8: `knn_query` with `k == 0` fails with `InvalidArgument` before
touching the tree, for every tree state and query point (the embedding of
`BOOST_ASSERT_MSG(k > 0, "knn_query: 0 neighbours is invalid")`). -/
theorem c8_knn_zero_k_invalid_argument {T ID : Type} [DecidableEq T]
    [DecidableEq ID] [Inhabited ID] (d : T → T → ℤ) (t : m_tree T ID) (q : T) :
    m_tree.knn_query d t q 0 = .error .invalidArgument := rfl

/-- Helper for C9: with a negative radius the range loop never emits an id,
whatever the queue holds: the leaf cheap filter `|dp - dist| < r` cannot hold
for `r < 0`. -/
theorem rangeLoop_neg {T ID : Type} [DecidableEq T] [DecidableEq ID]
    [Inhabited ID] (d : T → T → ℤ) (q : T) {r : ℤ} (hr : r < 0) :
    ∀ (fuel : ℕ) (queue : List (tree_node T ID × Bool)) (acc : List ID),
      rangeLoop d q r fuel queue acc = acc := by
  intro fuel
  induction fuel with
  | zero => intro queue acc; rfl
  | succ n ih =>
    intro queue acc
    match queue with
    | [] => rfl
    | (nd, isRoot) :: rest =>
      match nd with
      | .leaf los =>
        have hhits : ∀ lo ∈ los,
            (fun lo : leaf_object T ID =>
              if |(match get_parent_value (.leaf los) with
                    | some pv => if isRoot then 0 else d q pv
                    | none => 0) - lo.distance| < r then
                if d lo.value q ≤ r then some lo.id else none
              else none) lo = none := by
          intro lo _
          have habs : ¬ (|(match get_parent_value (tree_node.leaf los) with
                    | some pv => if isRoot then 0 else d q pv
                    | none => 0) - lo.distance| < r) := by
            intro hcon
            exact absurd (lt_of_le_of_lt (abs_nonneg _) hcon) (not_lt.mpr hr.le)
          simp only [if_neg habs]
        simp only [rangeLoop, List.filterMap_eq_nil_iff.mpr hhits,
          List.append_nil]
        exact ih rest acc
      | .internal ros =>
        simp only [rangeLoop]
        exact ih _ acc

/-- C9: for every tree state and every query point, `range_query(q, r)` with
`r < 0` returns the empty result: internal entries may still be enqueued
(`r + covering_radius` can be non-negative) but the leaf emission filter
`|dp - dist_parent| < r` can never pass. -/
theorem c9_negative_range_empty {T ID : Type} [DecidableEq T] [DecidableEq ID]
    [Inhabited ID] (d : T → T → ℤ) (t : m_tree T ID) (q : T) {r : ℤ}
    (hr : r < 0) : m_tree.range_query d t q r = [] := by
  match t with
  | ⟨none⟩ => rfl
  | ⟨some rt⟩ =>
    show rangeLoop d q r (nodeCount rt + 1) [(rt, true)] [] = []
    exact rangeLoop_neg d q hr _ _ _

/-- C9 witness: the theorem applied at a concrete tree, query point and
radius `-1`. -/
theorem c9_negative_range_empty_witness :
    m_tree.range_query dInt (⟨some (.leaf [⟨42, 1, 0⟩])⟩ : m_tree ℤ ℕ) 7 (-1)
      = [] :=
  c9_negative_range_empty dInt ⟨some (.leaf [⟨42, 1, 0⟩])⟩ 7 (by decide)

/-- C10: with the root pointer absent (the state `clear()` leaves),
every public operation is total: `range_query` returns no ids, `knn_query`
(for any positive `k`) returns the empty result list, and `insert` first
allocates a fresh empty leaf root and proceeds exactly as an insert into
such a root. -/
theorem c10_absent_root_total {T ID : Type} [DecidableEq T] [DecidableEq ID]
    [Inhabited ID] (d : T → T → ℤ) (C : ℕ) (q : T) (r : ℤ) (k : ℕ) (i : ID)
    (v : T) :
    m_tree.range_query d (⟨none⟩ : m_tree T ID) q r = []
    ∧ m_tree.knn_query d (⟨none⟩ : m_tree T ID) q (k + 1) = .ok []
    ∧ m_tree.insert d C (⟨none⟩ : m_tree T ID) i v
        = m_tree.insert d C ⟨some (.leaf [])⟩ i v :=
  ⟨rfl, rfl, rfl⟩

/-! ## Lemmas about the BALANCED partition loop (claim C7) -/

theorem bp_keys_filter_general (l : List (ℕ × ℤ)) (q : ℕ → Bool) :
    (l.filter (fun p => q p.1)).map Prod.fst = (l.map Prod.fst).filter q := by
  induction l with
  | nil => rfl
  | cons h t ih =>
    cases hq : q h.1 <;> simp [List.filter_cons, hq, ih]

theorem bp_keys_filter (l : List (ℕ × ℤ)) (k : ℕ) :
    (l.filter (fun p => p.1 ≠ k)).map Prod.fst
      = (l.map Prod.fst).filter (fun x => x ≠ k) :=
  bp_keys_filter_general l (fun x => x ≠ k)

theorem bp_filter_head {h : ℕ × ℤ} {t : List (ℕ × ℤ)}
    (hnd : ((h :: t).map Prod.fst).Nodup) :
    (h :: t).filter (fun p => p.1 ≠ h.1) = t := by
  have hh : h.1 ∉ t.map Prod.fst := by
    simp only [List.map_cons, List.nodup_cons] at hnd
    exact hnd.1
  have ht : t.filter (fun p => p.1 ≠ h.1) = t := by
    apply List.filter_eq_self.mpr
    intro p hp
    have hmem : p.1 ∈ t.map Prod.fst := List.mem_map_of_mem Prod.fst hp
    simp only [ne_eq, decide_eq_true_eq]
    exact fun hcon => hh (hcon ▸ hmem)
  rw [List.filter_cons, if_neg (by simp)]
  exact ht

theorem bp_keys_perm_filter {l1 l2 : List (ℕ × ℤ)} {k : ℕ}
    (hp : (l1.map Prod.fst).Perm (l2.map Prod.fst)) :
    ((l1.filter (fun p => p.1 ≠ k)).map Prod.fst).Perm
      ((l2.filter (fun p => p.1 ≠ k)).map Prod.fst) := by
  rw [bp_keys_filter, bp_keys_filter]
  exact hp.filter _

theorem bp_filter_not_mem {l : List ℕ} {k : ℕ} (h : k ∉ l) :
    l.filter (fun x => x ≠ k) = l := by
  apply List.filter_eq_self.mpr
  intro a ha
  simp only [ne_eq, decide_eq_true_eq]
  intro hcon
  exact h (hcon ▸ ha)

theorem bpAssign_cons_lt {C : ℕ} {h : ℕ × ℤ} {t other : List (ℕ × ℤ)}
    {acc : List ℕ} (hlen : acc.length < C) :
    bpAssign C (h :: t) other acc
      = ((h :: t).filter (fun p => p.1 ≠ h.1),
          other.filter (fun p => p.1 ≠ h.1), acc ++ [h.1]) := by
  simp [bpAssign, hlen]

theorem bpAssign_cons_ge {C : ℕ} {h : ℕ × ℤ} {t other : List (ℕ × ℤ)}
    {acc : List ℕ} (hlen : ¬ acc.length < C) :
    bpAssign C (h :: t) other acc = (h :: t, other, acc) := by
  simp [bpAssign, hlen]

theorem bpAssign_nil {C : ℕ} {other : List (ℕ × ℤ)} {acc : List ℕ} :
    bpAssign C [] other acc = ([], other, acc) := rfl

theorem bpLoop_succ (C n : ℕ) (d1 d2 : List (ℕ × ℤ)) (a1 a2 : List ℕ)
    (hne : ¬ (d1.isEmpty && d2.isEmpty) = true) :
    bpLoop C (n + 1) d1 d2 a1 a2
      = bpLoop C n
          (bpAssign C (bpAssign C d1 d2 a1).2.1 (bpAssign C d1 d2 a1).1 a2).2.1
          (bpAssign C (bpAssign C d1 d2 a1).2.1 (bpAssign C d1 d2 a1).1 a2).1
          (bpAssign C d1 d2 a1).2.2
          (bpAssign C (bpAssign C d1 d2 a1).2.1 (bpAssign C d1 d2 a1).1 a2).2.2
    := by
  simp only [bpLoop]
  rw [if_neg hne]

/-- Main invariant lemma for the alternating assignment loop of
`balanced_partition`: given synchronised duplicate-free candidate lists and
an index population of at most `2C`, the loop assigns every index to exactly
one side, respects the capacity cap `C` on each side, and splits an
even-sized population exactly in half. -/
theorem bpLoop_spec (C : ℕ) :
    ∀ (fuel : ℕ) (d1 d2 : List (ℕ × ℤ)) (a1 a2 : List ℕ),
      d1.length ≤ fuel →
      (d1.map Prod.fst).Perm (d2.map Prod.fst) →
      (d1.map Prod.fst).Nodup →
      a1.length + a2.length + d1.length ≤ 2 * C →
      a1.length ≤ C → a2.length ≤ C →
      (((bpLoop C fuel d1 d2 a1 a2).1 : Multiset ℕ)
            + ((bpLoop C fuel d1 d2 a1 a2).2 : Multiset ℕ)
          = (a1 : Multiset ℕ) + (a2 : Multiset ℕ)
            + (d1.map Prod.fst : Multiset ℕ))
        ∧ (bpLoop C fuel d1 d2 a1 a2).1.length ≤ C
        ∧ (bpLoop C fuel d1 d2 a1 a2).2.length ≤ C
        ∧ (a1.length = a2.length → 2 ∣ d1.length →
            (bpLoop C fuel d1 d2 a1 a2).1.length
              = (bpLoop C fuel d1 d2 a1 a2).2.length) := by
  intro fuel
  induction fuel with
  | zero =>
    intro d1 d2 a1 a2 hfuel _hperm _hnd _hsum hc1 hc2
    have hd1 : d1 = [] := List.length_eq_zero.mp (Nat.le_zero.mp hfuel)
    subst hd1
    refine ⟨by simp [bpLoop], hc1, hc2, fun h _ => h⟩
  | succ n ih =>
    intro d1 d2 a1 a2 hfuel hperm hnd hsum hc1 hc2
    cases d1 with
    | nil =>
      have hd2 : d2 = [] := by
        have hlen := hperm.length_eq
        simp only [List.map_nil, List.length_nil, List.length_map] at hlen
        exact List.length_eq_zero.mp hlen.symm
      subst hd2
      refine ⟨by simp [bpLoop], hc1, hc2, fun h _ => h⟩
    | cons h t =>
      have hndt : (t.map Prod.fst).Nodup := by
        simp only [List.map_cons, List.nodup_cons] at hnd
        exact hnd.2
      have hhmem : h.1 ∉ t.map Prod.fst := by
        simp only [List.map_cons, List.nodup_cons] at hnd
        exact hnd.1
      have hd2ne : d2 ≠ [] := by
        intro hcon
        subst hcon
        have := hperm.length_eq
        simp at this
      have hne : ¬ (((h :: t).isEmpty && d2.isEmpty) = true) := by
        simp [List.isEmpty_cons]
      rw [bpLoop_succ C n (h :: t) d2 a1 a2 hne]
      by_cases hA1 : a1.length < C
      · -- step 1 assigns h.1 to the first child
        rw [bpAssign_cons_lt hA1]
        dsimp only
        rw [bp_filter_head hnd]
        have hkeys2 : (t.map Prod.fst).Perm
            ((d2.filter (fun p => p.1 ≠ h.1)).map Prod.fst) := by
          have h1 := bp_keys_perm_filter (k := h.1) hperm
          rw [bp_filter_head hnd] at h1
          exact h1
        have hlen2 : (d2.filter (fun p => p.1 ≠ h.1)).length = t.length := by
          have := hkeys2.length_eq
          simpa using this.symm
        cases hd2f : d2.filter (fun p => p.1 ≠ h.1) with
        | nil =>
          -- everything is assigned: t must be empty as well
          have ht : t = [] := by
            rw [hd2f] at hlen2
            exact List.length_eq_zero.mp (by simpa using hlen2.symm)
          subst ht
          rw [bpAssign_nil]
          dsimp only
          obtain ⟨ih1, ih2, ih3, _ih4⟩ :=
            ih [] [] (a1 ++ [h.1]) a2 (by simp)
              (by simp) (by simp)
              (by
                simp only [List.length_append, List.length_singleton,
                  List.length_nil]
                simp only [List.length_cons, List.length_nil] at hsum
                omega)
              (by simpa using Nat.succ_le_of_lt hA1) hc2
          refine ⟨?_, ih2, ih3, ?_⟩
          · rw [ih1]
            simp only [List.map_nil, Multiset.coe_nil, add_zero,
              List.map_cons, ← Multiset.coe_add, Multiset.coe_singleton,
              ← Multiset.cons_coe, ← Multiset.singleton_add]
            abel
          · intro _ hdvd
            simp only [List.length_cons, List.length_nil] at hdvd
            omega
        | cons g u =>
          have hndd2 : ((g :: u).map Prod.fst).Nodup := by
            rw [← hd2f]
            exact (hkeys2.nodup_iff).mp hndt
          rw [hd2f] at hkeys2 hlen2
          by_cases hA2 : a2.length < C
          · -- step 2 assigns g.1 to the second child
            rw [bpAssign_cons_lt hA2]
            dsimp only
            rw [bp_filter_head hndd2]
            -- the new first list: t with g.1 removed
            have hkeq : ((t.filter (fun p => p.1 ≠ g.1)).map Prod.fst)
                = (t.map Prod.fst).filter (fun x => x ≠ g.1) :=
              bp_keys_filter t g.1
            have hgu : g.1 ∉ u.map Prod.fst := by
              simp only [List.map_cons, List.nodup_cons] at hndd2
              exact hndd2.1
            have hkperm : (((t.filter (fun p => p.1 ≠ g.1)).map Prod.fst)).Perm
                (u.map Prod.fst) := by
              rw [hkeq]
              have hstep := hkeys2.filter (fun x => x ≠ g.1)
              rw [List.map_cons, List.filter_cons, if_neg (by simp),
                bp_filter_not_mem hgu] at hstep
              exact hstep
            have hlen3 : (t.filter (fun p => p.1 ≠ g.1)).length = u.length := by
              have := hkperm.length_eq
              simpa using this
            have hlent : u.length + 1 = t.length := by
              simpa using hlen2
            obtain ⟨ih1, ih2, ih3, ih4⟩ :=
              ih (t.filter (fun p => p.1 ≠ g.1)) u (a1 ++ [h.1]) (a2 ++ [g.1])
                (by rw [hlen3]; simp only [List.length_cons] at hfuel; omega)
                hkperm ((hkperm.nodup_iff).mpr ((hkeys2.nodup_iff).mp hndt).of_cons)
                (by
                  simp only [List.length_append, List.length_singleton]
                  simp only [List.length_cons] at hsum
                  omega)
                (by simpa using Nat.succ_le_of_lt hA1)
                (by simpa using Nat.succ_le_of_lt hA2)
            refine ⟨?_, ih2, ih3, ?_⟩
            · rw [ih1]
              have e1 : ((a1 ++ [h.1] : List ℕ) : Multiset ℕ) = ↑a1 + {h.1} := by
                rw [← Multiset.coe_add]; simp
              have e2 : ((a2 ++ [g.1] : List ℕ) : Multiset ℕ) = ↑a2 + {g.1} := by
                rw [← Multiset.coe_add]; simp
              have e3 : (((t.filter (fun p => p.1 ≠ g.1)).map Prod.fst : List ℕ)
                  : Multiset ℕ) = ↑(u.map Prod.fst) :=
                Multiset.coe_eq_coe.mpr hkperm
              have e4 : ((t.map Prod.fst : List ℕ) : Multiset ℕ)
                  = ↑((g :: u).map Prod.fst) := Multiset.coe_eq_coe.mpr hkeys2
              rw [e1, e2, e3]
              simp only [List.map_cons, ← Multiset.cons_coe] at e4 ⊢
              rw [e4, ← Multiset.singleton_add, ← Multiset.singleton_add]
              abel
            · intro heq hdvd
              apply ih4
              · simp only [List.length_append, List.length_singleton, heq]
              · simp only [List.length_cons] at hdvd
                rw [hlen3]
                omega
          · -- second child full: only step 1 fires this iteration
            rw [bpAssign_cons_ge hA2]
            dsimp only
            obtain ⟨ih1, ih2, ih3, _ih4⟩ :=
              ih t (g :: u) (a1 ++ [h.1]) a2
                (by simp only [List.length_cons] at hfuel; omega)
                hkeys2 hndt
                (by
                  simp only [List.length_append, List.length_singleton]
                  simp only [List.length_cons] at hsum
                  omega)
                (by simpa using Nat.succ_le_of_lt hA1) hc2
            refine ⟨?_, ih2, ih3, ?_⟩
            · rw [ih1]
              have e1 : ((a1 ++ [h.1] : List ℕ) : Multiset ℕ) = ↑a1 + {h.1} := by
                rw [← Multiset.coe_add]; simp
              rw [e1]
              simp only [List.map_cons, ← Multiset.cons_coe,
                ← Multiset.singleton_add]
              abel
            · intro heq _
              exfalso
              have : a2.length = C := le_antisymm hc2 (not_lt.mp hA2)
              omega
      · -- first child full: step 1 is skipped
        rw [bpAssign_cons_ge hA1]
        dsimp only
        have ha1C : a1.length = C := le_antisymm hc1 (not_lt.mp hA1)
        cases d2 with
        | nil => exact absurd rfl hd2ne
        | cons g u =>
          have hndd2 : ((g :: u).map Prod.fst).Nodup := (hperm.nodup_iff).mp hnd
          have hgu : g.1 ∉ u.map Prod.fst := by
            simp only [List.map_cons, List.nodup_cons] at hndd2
            exact hndd2.1
          by_cases hA2 : a2.length < C
          · rw [bpAssign_cons_lt hA2]
            dsimp only
            rw [bp_filter_head hndd2]
            have hkperm : ((((h :: t).filter (fun p => p.1 ≠ g.1)).map
                Prod.fst)).Perm (u.map Prod.fst) := by
              rw [bp_keys_filter]
              have hstep := hperm.filter (fun x => x ≠ g.1)
              rw [List.map_cons (f := Prod.fst) (l := u), List.filter_cons,
                if_neg (by simp), bp_filter_not_mem hgu] at hstep
              exact hstep
            have hlenu : u.length + 1 = t.length + 1 := by
              have := hperm.length_eq
              simpa using this.symm
            have hlenf : ((h :: t).filter (fun p => p.1 ≠ g.1)).length
                = u.length := by
              have := hkperm.length_eq
              simpa using this
            obtain ⟨ih1, ih2, ih3, _ih4⟩ :=
              ih ((h :: t).filter (fun p => p.1 ≠ g.1)) u a1 (a2 ++ [g.1])
                (by
                  rw [hlenf]
                  simp only [List.length_cons] at hfuel
                  omega)
                hkperm
                (by rw [bp_keys_filter]; exact hnd.filter _)
                (by
                  rw [hlenf]
                  simp only [List.length_append, List.length_singleton]
                  simp only [List.length_cons] at hsum
                  omega)
                hc1 (by simpa using Nat.succ_le_of_lt hA2)
            refine ⟨?_, ih2, ih3, ?_⟩
            · rw [ih1]
              have e2 : ((a2 ++ [g.1] : List ℕ) : Multiset ℕ) = ↑a2 + {g.1} := by
                rw [← Multiset.coe_add]; simp
              have e3 : ((((h :: t).filter (fun p => p.1 ≠ g.1)).map Prod.fst
                  : List ℕ) : Multiset ℕ) = ↑(u.map Prod.fst) :=
                Multiset.coe_eq_coe.mpr hkperm
              have e4 : (((h :: t).map Prod.fst : List ℕ) : Multiset ℕ)
                  = ↑((g :: u).map Prod.fst) := Multiset.coe_eq_coe.mpr hperm
              rw [e2, e3, e4]
              simp only [List.map_cons, ← Multiset.cons_coe,
                ← Multiset.singleton_add]
              abel
            · intro heq _
              exfalso
              omega
          · exfalso
            have ha2C : a2.length = C := le_antisymm hc2 (not_lt.mp hA2)
            have hlc : (h :: t).length = t.length + 1 := rfl
            omega

theorem filterMap_length_eq {α β : Type} (f : α → Option β) :
    ∀ (l : List α), (∀ a ∈ l, (f a).isSome = true) →
      (l.filterMap f).length = l.length := by
  intro l
  induction l with
  | nil => intro _; rfl
  | cons a l ih =>
    intro h
    obtain ⟨b, hb⟩ := Option.isSome_iff_exists.mp (h a (by simp))
    rw [List.filterMap_cons, hb]
    simp only [List.length_cons]
    rw [ih (fun x hx => h x (by simp [hx]))]

theorem range_filterMap_get {α β : Type} (f : α → β) :
    ∀ (o : List α),
      (List.range o.length).filterMap (fun a => (o.get? a).map f) = o.map f := by
  intro o
  induction o with
  | nil => rfl
  | cons x o' ih =>
    rw [List.length_cons, List.range_succ_eq_map, List.filterMap_cons]
    simp only [List.get?_cons_zero, Option.map_some']
    rw [List.filterMap_map]
    have hcomp : ((fun a => ((x :: o').get? a).map f) ∘ Nat.succ)
        = fun a => (o'.get? a).map f := by
      funext a
      simp [List.get?_cons_succ]
    rw [hcomp, ih, List.map_cons]

theorem childEntries_values {T ID : Type} [DecidableEq T] [DecidableEq ID]
    [Inhabited ID] (d : T → T → ℤ) (o : List (data_entry T ID)) (dist : ℕ → ℤ)
    (p : T) (idxs : List ℕ) (hne : o ≠ [])
    (hhom : (∀ e ∈ o, e.isLeafEntry = true)
      ∨ (∀ e ∈ o, e.isLeafEntry = false)) :
    nodeEntryValues (childEntries d o dist p idxs)
      = idxs.filterMap (fun a => (o.get? a).map data_entry.node_value) := by
  cases o with
  | nil => exact absurd rfl hne
  | cons e o' =>
    cases hhom with
    | inl hl =>
      have he := hl e (by simp)
      cases e with
      | routeObj ro => simp [data_entry.isLeafEntry] at he
      | leafObj lo =>
        simp only [childEntries, List.headD_cons, nodeEntryValues]
        rw [List.map_filterMap]
        apply List.filterMap_congr
        intro a _
        cases hg : (data_entry.leafObj lo :: o').get? a with
        | none => simp
        | some e2 =>
          have he2 := hl e2 (List.get?_mem hg)
          cases e2 with
          | routeObj _ => simp [data_entry.isLeafEntry] at he2
          | leafObj lo2 => simp [data_entry.node_value]
    | inr hr =>
      have he := hr e (by simp)
      cases e with
      | leafObj lo => simp [data_entry.isLeafEntry] at he
      | routeObj ro =>
        simp only [childEntries, List.headD_cons, nodeEntryValues]
        rw [List.map_filterMap]
        apply List.filterMap_congr
        intro a _
        cases hg : (data_entry.routeObj ro :: o').get? a with
        | none => simp
        | some e2 =>
          have he2 := hr e2 (List.get?_mem hg)
          cases e2 with
          | leafObj _ => simp [data_entry.isLeafEntry] at he2
          | routeObj ro2 =>
              cases ro2 with
              | mk v r dst t =>
                  simp [data_entry.node_value, routing_object.value]

/-- C7: the BALANCED partition algorithm, applied to an overflow bag of
`C + 1` homogeneous entries whose two promoted pivots occur at distinct
positions (`balanced_partition` returning a result is exactly the source
passing its `find_if` / distinct-pivot assertion), assigns every element of
the bag to exactly one of the two children (the two children's entry values
are a permutation of the bag's values), gives neither child more than `C`
entries, makes the two sizes sum to `C + 1` (so once one child reaches `C`
the other holds exactly the remaining one), and splits an even bag exactly
in half. -/
theorem c7_balanced_partition_distributes {T ID : Type} [DecidableEq T]
    [DecidableEq ID] [Inhabited ID] (d : T → T → ℤ) (C : ℕ)
    (o : List (data_entry T ID)) (dists : List ℤ) (p1 p2 : T)
    (n1 n2 : routing_object T ID) (hC : 2 ≤ C) (hlen : o.length = C + 1)
    (hhom : (∀ e ∈ o, e.isLeafEntry = true)
      ∨ (∀ e ∈ o, e.isLeafEntry = false))
    (hres : balanced_partition d C o dists p1 p2 = some (n1, n2)) :
    ((nodeEntryValues n1.covering_tree)
        ++ (nodeEntryValues n2.covering_tree)).Perm
        (o.map data_entry.node_value)
    ∧ (nodeEntryValues n1.covering_tree).length ≤ C
    ∧ (nodeEntryValues n2.covering_tree).length ≤ C
    ∧ (nodeEntryValues n1.covering_tree).length
        + (nodeEntryValues n2.covering_tree).length = C + 1
    ∧ ((nodeEntryValues n1.covering_tree).length = C
        → (nodeEntryValues n2.covering_tree).length = 1)
    ∧ (2 ∣ C + 1 → (nodeEntryValues n1.covering_tree).length
        = (nodeEntryValues n2.covering_tree).length) := by
  have hone : o ≠ [] := by
    intro h0
    rw [h0] at hlen
    simp at hlen
  simp only [balanced_partition] at hres
  cases hf1 : o.findIdx? (fun e => e.node_value = p1) with
  | none => rw [hf1] at hres; exact Option.noConfusion hres
  | some i1 =>
    cases hf2 : o.findIdx? (fun e => e.node_value = p2) with
    | none => rw [hf1, hf2] at hres; exact Option.noConfusion hres
    | some i2 =>
      rw [hf1, hf2] at hres
      dsimp only at hres
      by_cases hij : i1 = i2
      · rw [if_pos hij] at hres
        exact Option.noConfusion hres
      · rw [if_neg hij] at hres
        rw [Option.some.injEq, Prod.mk.injEq] at hres
        obtain ⟨hn1, hn2⟩ := hres
        rw [← hn1, ← hn2]
        simp only [routing_object.covering_tree]
        -- names for the sorted candidate lists and the loop's assignment
        set L1 := ((List.range o.length).map
            (fun a => (a, dists.getD (o.length * i1 + a) 0))).insertionSort
            (fun x y => x.2 < y.2) with hL1def
        set L2 := ((List.range o.length).map
            (fun a => (a, dists.getD (o.length * i2 + a) 0))).insertionSort
            (fun x y => x.2 < y.2) with hL2def
        set A := bpLoop C o.length L1 L2 [] [] with hAdef
        have hkeys1 : (L1.map Prod.fst).Perm (List.range o.length) := by
          rw [hL1def]
          have hp := (List.perm_insertionSort (fun x y : ℕ × ℤ => x.2 < y.2)
            ((List.range o.length).map
              (fun a => (a, dists.getD (o.length * i1 + a) 0)))).map Prod.fst
          simpa [List.map_map, Function.comp_def] using hp
        have hkeys2 : (L2.map Prod.fst).Perm (List.range o.length) := by
          rw [hL2def]
          have hp := (List.perm_insertionSort (fun x y : ℕ × ℤ => x.2 < y.2)
            ((List.range o.length).map
              (fun a => (a, dists.getD (o.length * i2 + a) 0)))).map Prod.fst
          simpa [List.map_map, Function.comp_def] using hp
        have hperm12 := hkeys1.trans hkeys2.symm
        have hnd1 := (hkeys1.nodup_iff).mpr (List.nodup_range o.length)
        have hlen1 : L1.length = o.length := by
          have := hkeys1.length_eq
          simpa using this
        obtain ⟨g1, g2, g3, g4⟩ :=
          bpLoop_spec C o.length L1 L2 [] [] (le_of_eq hlen1) hperm12 hnd1
            (by rw [hlen1, hlen]; simp; omega) (by simp) (by simp)
        -- the two assigned index lists partition the index range
        have hcoe : ((A.1 ++ A.2 : List ℕ) : Multiset ℕ)
            = ↑(L1.map Prod.fst) := by
          rw [← Multiset.coe_add, hAdef, g1]
          simp
        have hasP := Multiset.coe_eq_coe.mp hcoe
        have hrange := hasP.trans hkeys1
        have hbound : ∀ a ∈ (A.1 ++ A.2),
            ((o.get? a).map data_entry.node_value).isSome = true := by
          intro a ha
          have hlt := List.mem_range.mp (hrange.subset ha)
          rw [List.get?_eq_get hlt]
          rfl
        have hch1 := childEntries_values d o
          (fun a => dists.getD (o.length * i1 + a) 0) p1 A.1 hone hhom
        have hch2 := childEntries_values d o
          (fun a => dists.getD (o.length * i2 + a) 0) p2 A.2 hone hhom
        rw [hch1, hch2]
        have hlc1 := filterMap_length_eq
          (fun a => (o.get? a).map data_entry.node_value) A.1
          (fun a ha => hbound a (List.mem_append_left _ ha))
        have hlc2 := filterMap_length_eq
          (fun a => (o.get? a).map data_entry.node_value) A.2
          (fun a ha => hbound a (List.mem_append_right _ ha))
        have hsumlen : A.1.length + A.2.length = C + 1 := by
          have := hrange.length_eq
          simp only [List.length_append, List.length_range] at this
          rw [this, hlen]
        refine ⟨?_, ?_, ?_, ?_, ?_, ?_⟩
        · rw [← List.filterMap_append]
          exact (hrange.filterMap _).trans
            (by rw [range_filterMap_get data_entry.node_value o])
        · rw [hlc1]; exact g2
        · rw [hlc2]; exact g3
        · rw [hlc1, hlc2]; exact hsumlen
        · rw [hlc1, hlc2]; omega
        · intro hdvd
          rw [hlc1, hlc2]
          exact g4 rfl (by rw [hlen1, hlen]; exact hdvd)

/-- C7 witness: the theorem applied to the concrete overflow bag `c7bag`
(values `[20, 0, 10, 5]`, `C = 3`, pivots `20` and `0`), whose partition the
kernel evaluates to children `{20, 10}` and `{0, 5}`. -/
theorem c7_balanced_partition_distributes_witness :
    (nodeEntryValues ((routing_object.mk (20 : ℤ) 10 0
          (tree_node.leaf [⟨20, 4, 0⟩, ⟨10, 2, 10⟩]) :
          routing_object ℤ ℕ).covering_tree)).length
        + (nodeEntryValues ((routing_object.mk (0 : ℤ) 5 0
          (tree_node.leaf [⟨0, 1, 0⟩, ⟨5, 3, 5⟩]) :
          routing_object ℤ ℕ).covering_tree)).length = 3 + 1
    ∧ (nodeEntryValues ((routing_object.mk (20 : ℤ) 10 0
          (tree_node.leaf [⟨20, 4, 0⟩, ⟨10, 2, 10⟩]) :
          routing_object ℤ ℕ).covering_tree)).length
        = (nodeEntryValues ((routing_object.mk (0 : ℤ) 5 0
          (tree_node.leaf [⟨0, 1, 0⟩, ⟨5, 3, 5⟩]) :
          routing_object ℤ ℕ).covering_tree)).length := by
  have h := c7_balanced_partition_distributes dInt 3 c7bag
    (calculate_distance_matrix dInt c7bag) 20 0
    (routing_object.mk 20 10 0 (tree_node.leaf [⟨20, 4, 0⟩, ⟨10, 2, 10⟩]))
    (routing_object.mk 0 5 0 (tree_node.leaf [⟨0, 1, 0⟩, ⟨5, 3, 5⟩]))
    (by decide) rfl (Or.inl (by decide)) rfl
  exact ⟨h.2.2.2.1, h.2.2.2.2.2 (by decide)⟩

end Mtree
